import Mathlib

/-!
Verification of the dataframes query-plan optimizer (src/main.rs).

The Rust program models a query execution plan as a jagged matrix of
per-column operations (a list of Steps, each Step a list of Actions) and
applies two rewrite passes: dead-column elimination and filter hoisting.

This file gives a shallow embedding of the data model and of every
operation the claims refer to, then proves or refutes each claim.
Machine-level partiality (Vec indexing, Option::unwrap, usize
subtraction overflow in debug builds, Vec::swap bounds) is modelled by
returning Option, with Option.none standing for a panic.
-/

set_option maxHeartbeats 1000000

namespace DataFrames

/-- One primitive operation tag occupying a single plan cell
(Rust enum Action). -/
inductive Action where
  | empty
  | none
  | name (s : String)
  | select
  | map
  | filter
  | group (n : Nat)
  | join (s : String)
deriving DecidableEq

/-- One row of the plan (Rust struct Step). -/
structure Step where
  actions : List Action
deriving DecidableEq

/-- A derived vertical slice of the plan (Rust struct Col). -/
structure Col where
  actions : List Action
deriving DecidableEq

/-- The plan: an ordered sequence of Steps (Rust struct Query). -/
structure Query where
  steps : List Step
deriving DecidableEq

/-- Rust Step::is_filter: self.actions.contains(Action::Filter). -/
def Step.is_filter (s : Step) : Bool :=
  s.actions.contains Action.filter

/-- Rust Step::widest_filter_index: iterate enumerate().rev(), return the
index of the first Filter encountered, None if there is none. -/
def Step.widest_filter_index (s : Step) : Option Nat :=
  (List.find? (fun p => match p.2 with
      | Action.filter => true
      | _ => false) s.actions.enum.reverse).map Prod.fst

/-- Rust Step::is_group: true iff some cell is Group(_). -/
def Step.is_group (s : Step) : Bool :=
  s.actions.any (fun a => match a with
    | Action.group _ => true
    | _ => false)

/-- The loop body of Rust Col::is_empty acting on the three mutable flags
(is_empty, is_used, seen_name). -/
def emptyFlags (fl : Bool × Bool × Bool) (a : Action) : Bool × Bool × Bool :=
  match a with
  | Action.empty => (fl.1 || (fl.2.2 && !fl.2.1), fl.2.1, fl.2.2)
  | Action.name _ => (fl.1, fl.2.1, true)
  | Action.filter => (fl.1, true, fl.2.2)
  | Action.join _ => (fl.1, true, fl.2.2)
  | _ => fl

/-- Rust Col::is_empty: fold the flag updates over the column, all flags
initially false, and return the final is_empty flag. -/
def Col.is_empty (c : Col) : Bool :=
  (c.actions.foldl emptyFlags (false, false, false)).1

/-- Rust Query::new. -/
def Query.new (step_vec : List (List Action)) : Query :=
  ⟨step_vec.map (fun actions => Step.mk actions)⟩

/-- Rust Query::width: length of the last Step, 0 for an empty plan. -/
def Query.width (q : Query) : Nat :=
  match q.steps.getLast? with
  | some s => s.actions.length
  | Option.none => 0

/-- Rust Query::col: read position index out of every Step, substituting
Empty where a Step is too short. -/
def Query.col (q : Query) (index : Nat) : Col :=
  ⟨q.steps.map (fun step =>
    match step.actions.get? index with
    | some a => a
    | Option.none => Action.empty)⟩

/-- Rust Query::cols: one column per position below the width. -/
def Query.cols (q : Query) : List Col :=
  (List.range q.width).map (fun i => q.col i)

/-- Rust Query::remove_col: drop position index from every row long
enough to have it; shorter rows are untouched. -/
def Query.remove_col (q : Query) (index : Nat) : Query :=
  ⟨q.steps.map (fun step =>
    if index < step.actions.length then ⟨step.actions.eraseIdx index⟩ else step)⟩

/-- Rust Vec::swap on lists; Option.none models the out-of-bounds panic. -/
def listSwap {α : Type} (l : List α) (i j : Nat) : Option (List α) :=
  match l.get? i, l.get? j with
  | some a, some b => some ((l.set i b).set j a)
  | _, _ => Option.none

/-- Rust Query::raise_step: for i in (anchor + 2 .. index + 1).rev(),
swap steps i and i - 1. -/
def Query.raise_step? (q : Query) (index anchor : Nat) : Option Query :=
  ((List.range' (anchor + 2) (index + 1 - (anchor + 2))).reverse).foldlM
    (fun qq i => (listSwap qq.steps i (i - 1)).map Query.mk) q

/-- Body of the anchor-refinement loop in pass 2 of Rust Query::optimize:
query.steps[j].actions.len() < query.steps[i].widest_filter_index().unwrap() - 1.
Option.none models the panics (indexing, unwrap, usize underflow of - 1). -/
def Query.innerCheck (q : Query) (i j : Nat) : Option Bool :=
  match q.steps.get? j, q.steps.get? i with
  | some rowj, some rowi =>
    (match Step.widest_filter_index rowi with
     | some w =>
       if w = 0 then Option.none
       else some (decide (rowj.actions.length < w - 1))
     | Option.none => Option.none)
  | _, _ => Option.none

/-- The anchor-refinement loop of pass 2: scan the given index list,
return the first j passing innerCheck (inner some), or none if the scan
finishes (inner Option.none); outer Option.none models a panic. -/
def Query.refineLoop (q : Query) (i : Nat) : List Nat → Option (Option Nat)
  | [] => some Option.none
  | j :: js =>
    match Query.innerCheck q i j with
    | some true => some (some j)
    | some false => Query.refineLoop q i js
    | Option.none => Option.none

/-- Pass 2 of Rust Query::optimize. The first argument is the remaining
part of the snapshot (query.steps.clone()), the second the index of its
head in the snapshot; the loop over j in i..filter_anchor is the
ascending Rust range, List.range' i (anchor1 - i). -/
def Query.pass2Go : List Step → Nat → Query → Nat → Option Query
  | [], _, q, _ => some q
  | step :: rest, i, q, anchor =>
    let anchor1 := if Step.is_group step then i else anchor
    if Step.is_filter step then
      match Query.refineLoop q i (List.range' i (anchor1 - i)) with
      | Option.none => Option.none
      | some r =>
        let anchor2 := match r with
          | some j => j
          | Option.none => anchor1
        match Query.raise_step? q i anchor2 with
        | Option.none => Option.none
        | some q2 => Query.pass2Go rest (i + 1) q2 anchor2
    else Query.pass2Go rest (i + 1) q anchor1

/-- Pass 2 entry point: iterate over a snapshot of the steps with the
filter anchor initialized to 0. -/
def Query.pass2 (q : Query) : Option Query :=
  Query.pass2Go q.steps 0 q 0

/-- Pass 1 of Rust Query::optimize: enumerate the columns materialized
once from the input, and remove position i of the current (already
mutated) plan whenever column i of the input is dead. -/
def Query.pass1 (q : Query) : Query :=
  (Query.cols q).enum.foldl
    (fun acc p => if Col.is_empty p.2 then Query.remove_col acc p.1 else acc) q

/-- Rust Query::optimize: pass 1 then pass 2. -/
def Query.optimize (q : Query) : Option Query :=
  Query.pass2 (Query.pass1 q)

/-- Pass 2 with the body of the anchor-refinement loop deleted: used to
state that the loop body never executes. -/
def Query.pass2GoNR : List Step → Nat → Query → Nat → Option Query
  | [], _, q, _ => some q
  | step :: rest, i, q, anchor =>
    let anchor1 := if Step.is_group step then i else anchor
    if Step.is_filter step then
      match Query.raise_step? q i anchor1 with
      | Option.none => Option.none
      | some q2 => Query.pass2GoNR rest (i + 1) q2 anchor1
    else Query.pass2GoNR rest (i + 1) q anchor1

/-- Pass 2 without the anchor-refinement loop. -/
def Query.pass2NoRefine (q : Query) : Option Query :=
  Query.pass2GoNR q.steps 0 q 0

/-- Modelled from the spec: the anchor-refinement search described in
spec section 4.3 step 3 for claim C3, searching indices j from i down to
the anchor (exclusive of i, inclusive of the anchor) for the first j
whose row length is smaller than rightmost_filter_index(step i) - 1. -/
def Query.refineSearchSpec (q : Query) (i anchor : Nat) : Option Nat :=
  match q.steps.get? i with
  | some rowi =>
    (match Step.widest_filter_index rowi with
     | some w =>
       ((List.range' anchor (i - anchor)).reverse).find? (fun j =>
         match q.steps.get? j with
         | some rowj => decide (rowj.actions.length < w - 1)
         | Option.none => false)
     | Option.none => Option.none)
  | Option.none => Option.none

/-- Modelled from the spec: pass 2 as spec section 4.3 describes it, with
the downward anchor-refinement search of refineSearchSpec. -/
def Query.pass2GoSpec : List Step → Nat → Query → Nat → Option Query
  | [], _, q, _ => some q
  | step :: rest, i, q, anchor =>
    let anchor1 := if Step.is_group step then i else anchor
    if Step.is_filter step then
      let anchor2 := match Query.refineSearchSpec q i anchor1 with
        | some j => j
        | Option.none => anchor1
      match Query.raise_step? q i anchor2 with
      | Option.none => Option.none
      | some q2 => Query.pass2GoSpec rest (i + 1) q2 anchor2
    else Query.pass2GoSpec rest (i + 1) q anchor1

/-- Modelled from the spec: optimize with the spec's version of the
anchor-refinement search (pass 1 is unchanged). -/
def Query.optimizeSpecC3 (q : Query) : Option Query :=
  Query.pass2GoSpec (Query.pass1 q).steps 0 (Query.pass1 q) 0

/-- Where the raise of step index with the given anchor sends position m
(ghost bookkeeping for the hoist trace). -/
def posMap (i a m : Nat) : Nat :=
  if i < a + 2 then m
  else if m = i then a + 1
  else if a + 1 ≤ m ∧ m < i then m + 1
  else m

/-- Pass 2 instrumented with a ghost trace: for every hoisted Filter Step
it records the hoist-time anchor together with the Step's position, kept
up to date through all later raises. The computed Query is exactly the
one of pass2Go. -/
def Query.pass2GoTr :
    List Step → Nat → Query → Nat → List (Nat × Nat) → Option (Query × List (Nat × Nat))
  | [], _, q, _, events => some (q, events)
  | step :: rest, i, q, anchor, events =>
    let anchor1 := if Step.is_group step then i else anchor
    if Step.is_filter step then
      match Query.refineLoop q i (List.range' i (anchor1 - i)) with
      | Option.none => Option.none
      | some r =>
        let anchor2 := match r with
          | some j => j
          | Option.none => anchor1
        match Query.raise_step? q i anchor2 with
        | Option.none => Option.none
        | some q2 =>
          Query.pass2GoTr rest (i + 1) q2 anchor2
            (events.map (fun e => (e.1, posMap i anchor2 e.2)) ++ [(anchor2, posMap i anchor2 i)])
    else Query.pass2GoTr rest (i + 1) q anchor1 events

/-- Instrumented optimize: pass 1 then the instrumented pass 2. -/
def Query.optimizeTr (q : Query) : Option (Query × List (Nat × Nat)) :=
  Query.pass2GoTr (Query.pass1 q).steps 0 (Query.pass1 q) 0 []

/-- An Action that reads a column: Filter or Join (spec-side helper for
stating the dead-column characterization). -/
def isUse (a : Action) : Bool :=
  match a with
  | Action.filter => true
  | Action.join _ => true
  | _ => false

/-- Total number of Action cells of a plan. -/
def totalCells (q : Query) : Nat :=
  (q.steps.map (fun s => s.actions.length)).sum

/-! Helper lemmas about the conditional fold used by pass 1. -/

theorem foldlIf_eq_foldl_filter {a b : Type} (p : b → Bool) (f : a → b → a) :
    ∀ (l : List b) (x : a),
      l.foldl (fun acc y => if p y then f acc y else acc) x = (l.filter p).foldl f x := by
  intro l
  induction l with
  | nil => intro x; rfl
  | cons y ys ih =>
    intro x
    by_cases h : p y
    · simp [List.filter_cons, h, ih]
    · simp [List.filter_cons, h, ih]

/-! Helper lemmas about listSwap and raise_step?. -/

theorem listSwap_cons {a : Type} (z : a) (l : List a) (i j : Nat) :
    listSwap (z :: l) (i + 1) (j + 1) = (listSwap l i j).map (fun t => z :: t) := by
  unfold listSwap
  rw [List.get?_cons_succ, List.get?_cons_succ]
  cases hi : l.get? i <;> cases hj : l.get? j
  · rfl
  · rfl
  · rfl
  · rename_i x y
    show some (((z :: l).set (i + 1) y).set (j + 1) x) = some (z :: (l.set i y).set j x)
    rw [List.set_cons_succ, List.set_cons_succ]

theorem listSwap_adjacent {a : Type} :
    ∀ (X : List a) (x y : a) (Y : List a),
      listSwap (X ++ x :: y :: Y) (X.length + 1) X.length = some (X ++ y :: x :: Y) := by
  intro X
  induction X with
  | nil => intro x y Y; rfl
  | cons z X ih =>
    intro x y Y
    have h := listSwap_cons z (X ++ x :: y :: Y) (X.length + 1) X.length
    simp only [List.cons_append, List.length_cons]
    rw [h, ih]
    rfl

theorem range'_concat_one (s n : Nat) :
    List.range' s (n + 1) = List.range' s n ++ [s + n] := by
  simpa using @List.range'_concat 1 s n

theorem raise_step_id (q : Query) (i a : Nat) (h : i + 1 ≤ a + 2) :
    Query.raise_step? q i a = some q := by
  unfold Query.raise_step?
  have h0 : i + 1 - (a + 2) = 0 := by omega
  rw [h0]
  rfl

theorem raise_step_surgery :
    ∀ (B A : List Step) (f : Step) (C : List Step) (a i : Nat),
      A.length = a + 1 → i = a + 1 + B.length →
      Query.raise_step? ⟨A ++ B ++ f :: C⟩ i a = some ⟨A ++ f :: (B ++ C)⟩ := by
  intro B
  induction B using List.reverseRecOn with
  | nil =>
    intro A f C a i hA hi
    have h : i + 1 ≤ a + 2 := by simp at hi; omega
    rw [raise_step_id _ _ _ h]
    simp
  | append_singleton B b ih =>
    intro A f C a i hA hi
    have hi2 : i = a + 2 + B.length := by simp at hi; omega
    have hlist : (List.range' (a + 2) (i + 1 - (a + 2))).reverse
        = i :: (List.range' (a + 2) ((i - 1) + 1 - (a + 2))).reverse := by
      have h1 : i + 1 - (a + 2) = B.length + 1 := by omega
      have h2 : (i - 1) + 1 - (a + 2) = B.length := by omega
      rw [h1, h2, range'_concat_one]
      have h3 : a + 2 + B.length = i := by omega
      rw [h3]
      simp
    rw [Query.raise_step?, hlist, List.foldlM_cons]
    have hswap : listSwap (A ++ (B ++ [b]) ++ f :: C) i (i - 1)
        = some ((A ++ B) ++ f :: b :: C) := by
      have e1 : A ++ (B ++ [b]) ++ f :: C = (A ++ B) ++ b :: f :: C := by simp
      have e2 : i = (A ++ B).length + 1 := by
        rw [List.length_append, hA]
        omega
      rw [e1, e2]
      simp only [Nat.add_sub_cancel]
      exact listSwap_adjacent (A ++ B) b f C
    rw [hswap]
    simp only [Option.map_some', Option.bind_eq_bind, Option.some_bind]
    have hrest : List.foldlM (fun qq i => (listSwap qq.steps i (i - 1)).map Query.mk)
        (Query.mk ((A ++ B) ++ f :: b :: C))
        ((List.range' (a + 2) ((i - 1) + 1 - (a + 2))).reverse)
        = Query.raise_step? ⟨(A ++ B) ++ f :: b :: C⟩ (i - 1) a := by
      rw [Query.raise_step?]
    rw [hrest]
    have e4 : (A ++ B) ++ f :: b :: C = A ++ B ++ f :: (b :: C) := by simp
    rw [e4, ih A f (b :: C) a (i - 1) hA (by omega)]
    have e5 : B ++ [b] ++ C = B ++ b :: C := by simp
    rw [e5]

/-! Helper lemmas about the list surgery performed by a raise. -/

theorem get?_of_drop_cons {a : Type} (l : List a) (i : Nat) (f : a) (C : List a)
    (h : l.drop i = f :: C) : l.get? i = some f := by
  have h2 := List.get?_drop l i 0
  rw [h] at h2
  simpa using h2.symm

theorem drop_succ_of_drop_cons {a : Type} (l : List a) (i : Nat) (f : a) (C : List a)
    (h : l.drop i = f :: C) : l.drop (i + 1) = C := by
  rw [← List.tail_drop, h]
  rfl

theorem lt_length_of_drop_cons {a : Type} (l : List a) (i : Nat) (f : a) (C : List a)
    (h : l.drop i = f :: C) : i < l.length := by
  by_contra hc
  push_neg at hc
  rw [List.drop_eq_nil_iff_le.2 hc] at h
  exact List.noConfusion h

theorem steps_decomp {a : Type} (l : List a) (i n : Nat) (f : a) (C : List a)
    (ha : n + 1 ≤ i) (hd : l.drop i = f :: C) :
    l = l.take (n + 1) ++ ((l.drop (n + 1)).take (i - (n + 1))) ++ f :: C ∧
    (l.take (n + 1)).length = n + 1 ∧
    ((l.drop (n + 1)).take (i - (n + 1))).length = i - (n + 1) := by
  have hi : i < l.length := lt_length_of_drop_cons l i f C hd
  have h3 : (l.drop (n + 1)).drop (i - (n + 1)) = l.drop i := by
    rw [List.drop_drop]
    congr 1
    omega
  have h4 : l.drop (n + 1) = (l.drop (n + 1)).take (i - (n + 1)) ++ f :: C := by
    conv_lhs => rw [← List.take_append_drop (i - (n + 1)) (l.drop (n + 1))]
    rw [h3, hd]
  refine ⟨?_, ?_, ?_⟩
  · conv_lhs => rw [← List.take_append_drop (n + 1) l, h4]
    exact (List.append_assoc _ _ _).symm
  · rw [List.length_take]
    omega
  · rw [List.length_take, List.length_drop]
    omega

theorem surgery_get?_lt {a : Type} (A : List a) (f : a) (B C : List a) (m : Nat)
    (hm : m < A.length) :
    (A ++ f :: (B ++ C)).get? m = (A ++ B ++ f :: C).get? m := by
  rw [List.get?_append hm, List.append_assoc, List.get?_append hm]

theorem surgery_get?_at {a : Type} (A : List a) (f : a) (B C : List a) :
    (A ++ f :: (B ++ C)).get? A.length = some f := by
  rw [List.get?_append_right (le_refl _)]
  simp

theorem surgery_get?_mid {a : Type} (A : List a) (f : a) (B C : List a) (m : Nat)
    (h1 : A.length + 1 ≤ m) (h2 : m ≤ A.length + B.length) :
    (A ++ f :: (B ++ C)).get? m = (A ++ B ++ f :: C).get? (m - 1) := by
  have hB : 1 ≤ B.length := by omega
  have e1 : m - A.length = (m - A.length - 1) + 1 := by omega
  rw [List.get?_append_right (by omega), e1, List.get?_cons_succ,
    List.get?_append (by omega)]
  rw [List.append_assoc, List.get?_append_right (by omega : A.length ≤ m - 1),
    List.get?_append (by omega)]
  congr 1
  omega

theorem surgery_get?_gt {a : Type} (A : List a) (f : a) (B C : List a) (m : Nat)
    (h : A.length + B.length + 1 ≤ m) :
    (A ++ f :: (B ++ C)).get? m = (A ++ B ++ f :: C).get? m := by
  have e1 : m - A.length = (m - A.length - 1) + 1 := by omega
  rw [List.get?_append_right (by omega), e1, List.get?_cons_succ,
    List.get?_append_right (by omega)]
  have e2 : m - (A ++ B).length = (m - (A ++ B).length - 1) + 1 := by
    rw [List.length_append]
    omega
  rw [List.get?_append_right (by rw [List.length_append]; omega), e2, List.get?_cons_succ]
  congr 1
  rw [List.length_append]
  omega

theorem old_get?_mem_mid {a : Type} (A : List a) (f : a) (B C : List a) (x : a)
    (hx : x ∈ B) :
    ∃ k, k < B.length ∧ (A ++ B ++ f :: C).get? (A.length + k) = some x := by
  rcases List.mem_iff_get.1 hx with ⟨n, hn⟩
  refine ⟨n.1, n.2, ?_⟩
  rw [List.append_assoc, List.get?_append_right (by omega : A.length ≤ A.length + n.1),
    List.get?_append (by simpa using n.2)]
  simp only [Nat.add_sub_cancel_left]
  rw [List.get?_eq_get n.2, hn]

theorem surgery_map_eq (p : Step → Bool) (A : List Step) (f : Step) (B C : List Step)
    (hf : p f = false) (hB : ∀ x ∈ B, p x = false) :
    (A ++ f :: (B ++ C)).map p = (A ++ B ++ f :: C).map p := by
  have hBr : B.map p = List.replicate B.length false := by
    rw [List.eq_replicate_iff]
    constructor
    · simp
    · intro b hb
      rcases List.mem_map.1 hb with ⟨x, hx, hpx⟩
      rw [← hpx]
      exact hB x hx
  simp only [List.map_append, List.map_cons, hf, hBr]
  rw [show (false :: (List.replicate B.length false ++ C.map p))
      = List.replicate (B.length + 1) false ++ C.map p from rfl]
  rw [List.replicate_succ', List.append_assoc, List.append_assoc]
  simp

theorem surgery_filter_eq (p : Step → Bool) (A : List Step) (f : Step) (B C : List Step)
    (hf : p f = false) :
    (A ++ f :: (B ++ C)).filter p = (A ++ B ++ f :: C).filter p := by
  simp [List.filter_append, List.filter_cons, hf]

theorem surgery_perm (A : List Step) (f : Step) (B C : List Step) :
    List.Perm (A ++ f :: (B ++ C)) (A ++ B ++ f :: C) := by
  rw [List.append_assoc]
  exact List.Perm.append_left A List.perm_middle.symm

theorem map_get?_transfer {a b : Type} (p : a → b) (l1 l2 : List a)
    (h : l1.map p = l2.map p) (m : Nat) (x1 x2 : a)
    (h1 : l1.get? m = some x1) (h2 : l2.get? m = some x2) : p x1 = p x2 := by
  have e1 := List.get?_map p l1 m
  have e2 := List.get?_map p l2 m
  rw [h1] at e1
  rw [h2] at e2
  rw [h] at e1
  rw [e2] at e1
  exact (Option.some.inj e1).symm

/-! Invariant machinery for pass 2. -/

/-- No Group-containing Step strictly between positions a and p. -/
def noGroupBetween (q : Query) (a p : Nat) : Prop :=
  ∀ m t, a < m → m < p → q.steps.get? m = some t → Step.is_group t = false

/-- The ghost trace is correct below index i: every recorded event points
at a Filter-containing Step below i with no Group-containing Step
strictly between its recorded anchor and its position, and every
Filter-containing Step below i is recorded. -/
def eventsOK (q : Query) (events : List (Nat × Nat)) (i : Nat) : Prop :=
  (∀ e ∈ events, e.2 < i ∧
      (∃ s, q.steps.get? e.2 = some s ∧ Step.is_filter s = true) ∧
      noGroupBetween q e.1 e.2) ∧
  (∀ p s, p < i → q.steps.get? p = some s → Step.is_filter s = true →
      ∃ e ∈ events, e.2 = p)

theorem posMap_of_id (i a m : Nat) (h : i < a + 2) : posMap i a m = m := by
  unfold posMap
  rw [if_pos h]

theorem posMap_of_at (i a : Nat) (h : a + 2 ≤ i) : posMap i a i = a + 1 := by
  unfold posMap
  rw [if_neg (by omega), if_pos rfl]

theorem posMap_of_low (i a m : Nat) (h : a + 2 ≤ i) (hm : m ≤ a) : posMap i a m = m := by
  unfold posMap
  split_ifs <;> omega

theorem posMap_of_mid (i a m : Nat) (h : a + 2 ≤ i) (h1 : a + 1 ≤ m) (h2 : m < i) :
    posMap i a m = m + 1 := by
  unfold posMap
  split_ifs <;> omega

theorem map_posMap_id (i a : Nat) (h : i < a + 2) (events : List (Nat × Nat)) :
    events.map (fun e => (e.1, posMap i a e.2)) = events := by
  have he : (fun e : Nat × Nat => (e.1, posMap i a e.2)) = fun e => e := by
    funext e
    rw [posMap_of_id i a e.2 h]
  rw [he, List.map_id']

theorem surgery_drop_succ (A : List Step) (f : Step) (B C : List Step) (i : Nat)
    (hi : i = A.length + B.length) :
    (A ++ f :: (B ++ C)).drop (i + 1) = C := by
  have h1 : A ++ f :: (B ++ C) = (A ++ f :: B) ++ C := by simp
  rw [h1]
  have hlen : (A ++ f :: B).length = i + 1 := by
    simp
    omega
  rw [← hlen, List.drop_left]

theorem raise_step_char (q : Query) (i a : Nat) (f : Step) (A B C : List Step)
    (hq : q.steps = A ++ B ++ f :: C) (hA : A.length = a + 1)
    (hB : B.length = i - (a + 1)) (ha : a + 1 ≤ i) :
    Query.raise_step? q i a = some ⟨A ++ f :: (B ++ C)⟩ := by
  have h1 : q = Query.mk (A ++ B ++ f :: C) := congrArg Query.mk hq
  calc Query.raise_step? q i a
      = Query.raise_step? ⟨A ++ B ++ f :: C⟩ i a := by rw [h1]
    _ = some ⟨A ++ f :: (B ++ C)⟩ := raise_step_surgery B A f C a i hA (by omega)

theorem eventsOK_succ (q : Query) (events : List (Nat × Nat)) (i : Nat) (step : Step)
    (hstep_at : q.steps.get? i = some step) (hf : Step.is_filter step = false)
    (hev : eventsOK q events i) : eventsOK q events (i + 1) := by
  constructor
  · intro e he
    obtain ⟨h1, h2, h3⟩ := hev.1 e he
    exact ⟨by omega, h2, h3⟩
  · intro p s hp hps hpf
    by_cases hpi : p < i
    · exact hev.2 p s hpi hps hpf
    · have hpe : p = i := by omega
      subst hpe
      rw [hstep_at] at hps
      have hs : step = s := Option.some.inj hps
      rw [← hs, hf] at hpf
      exact Bool.noConfusion hpf

theorem eventsOK_append_id (q : Query) (events : List (Nat × Nat)) (i a1 : Nat) (step : Step)
    (hstep_at : q.steps.get? i = some step) (hf : Step.is_filter step = true)
    (hle : i ≤ a1 + 1) (hev : eventsOK q events i) :
    eventsOK q (events ++ [(a1, i)]) (i + 1) := by
  constructor
  · intro e he
    rcases List.mem_append.1 he with h | h
    · obtain ⟨h1, h2, h3⟩ := hev.1 e h
      exact ⟨by omega, h2, h3⟩
    · have he2 : e = (a1, i) := by simpa using h
      subst he2
      refine ⟨by omega, ⟨step, hstep_at, hf⟩, ?_⟩
      intro m t hm1 hm2 _
      exact ((by omega : False)).elim
  · intro p s hp hps hpf
    by_cases hpi : p < i
    · obtain ⟨e, he, he2⟩ := hev.2 p s hpi hps hpf
      exact ⟨e, List.mem_append_left _ he, he2⟩
    · have hpe : p = i := by omega
      exact ⟨(a1, i), List.mem_append_right _ (by simp), by simp [hpe]⟩

theorem eventsOK_raise (q qn : Query) (events : List (Nat × Nat)) (i anchor : Nat)
    (step : Step)
    (hii : anchor + 2 ≤ i)
    (hfstep : Step.is_filter step = true)
    (hgstep : Step.is_group step = false)
    (hgrp : ∀ g t, g < i → q.steps.get? g = some t → Step.is_group t = true → g ≤ anchor)
    (pw_low : ∀ m, m ≤ anchor → qn.steps.get? m = q.steps.get? m)
    (pw_at : qn.steps.get? (anchor + 1) = some step)
    (pw_mid : ∀ m, anchor + 2 ≤ m → m ≤ i → qn.steps.get? m = q.steps.get? (m - 1))
    (hev : eventsOK q events i) :
    eventsOK qn (events.map (fun e => (e.1, posMap i anchor e.2)) ++ [(anchor, anchor + 1)])
      (i + 1) := by
  constructor
  · intro e he
    rcases List.mem_append.1 he with hmem | hmem
    · rcases List.mem_map.1 hmem with ⟨e0, he0, he0e⟩
      obtain ⟨hb, ⟨s, hs, hsf⟩, hng0⟩ := hev.1 e0 he0
      subst he0e
      by_cases hlow : e0.2 ≤ anchor
      · rw [posMap_of_low i anchor e0.2 hii hlow]
        refine ⟨by omega, ⟨s, ?_, hsf⟩, ?_⟩
        · rw [pw_low e0.2 hlow]
          exact hs
        · intro m t hm1 hm2 hmq
          rw [pw_low m (by omega)] at hmq
          exact hng0 m t hm1 hm2 hmq
      · push_neg at hlow
        rw [posMap_of_mid i anchor e0.2 hii (by omega) (by omega)]
        refine ⟨by omega, ⟨s, ?_, hsf⟩, ?_⟩
        · rw [pw_mid (e0.2 + 1) (by omega) (by omega)]
          simpa using hs
        · intro m t hm1 hm2 hmq
          by_cases hm : m ≤ anchor
          · rw [pw_low m hm] at hmq
            exact hng0 m t hm1 (by omega) hmq
          · push_neg at hm
            by_cases hm1e : m = anchor + 1
            · rw [hm1e, pw_at] at hmq
              rw [← Option.some.inj hmq]
              exact hgstep
            · rw [pw_mid m (by omega) (by omega)] at hmq
              by_cases hgt : Step.is_group t
              · exfalso
                have := hgrp (m - 1) t (by omega) hmq (by simpa using hgt)
                omega
              · simpa using hgt
    · have he2 : e = (anchor, anchor + 1) := by simpa using hmem
      subst he2
      refine ⟨by omega, ⟨step, pw_at, hfstep⟩, ?_⟩
      intro m t hm1 hm2 _
      exact ((by omega : False)).elim
  · intro p s hp hps hpf
    by_cases h1 : p ≤ anchor
    · rw [pw_low p h1] at hps
      obtain ⟨e, he, he2⟩ := hev.2 p s (by omega) hps hpf
      refine ⟨(e.1, posMap i anchor e.2), List.mem_append_left _ (List.mem_map_of_mem _ he), ?_⟩
      show posMap i anchor e.2 = p
      rw [he2, posMap_of_low i anchor p hii h1]
    · by_cases h2 : p = anchor + 1
      · exact ⟨(anchor, anchor + 1), List.mem_append_right _ (by simp), by simp [h2]⟩
      · have h3 : anchor + 2 ≤ p := by omega
        have h4 : p ≤ i := by omega
        rw [pw_mid p h3 h4] at hps
        obtain ⟨e, he, he2⟩ := hev.2 (p - 1) s (by omega) hps hpf
        refine ⟨(e.1, posMap i anchor e.2), List.mem_append_left _ (List.mem_map_of_mem _ he), ?_⟩
        show posMap i anchor e.2 = p
        rw [he2, posMap_of_mid i anchor (p - 1) hii (by omega) (by omega)]
        omega

/-! The main induction over pass 2: the anchor never exceeds the scan
index, so the refinement loop never runs, every raise succeeds, the
Group mask and the non-Filter sublist are preserved, the steps are
permuted, and the ghost trace is correct. -/

theorem pass2GoTr_spec :
    ∀ (rest : List Step) (i : Nat) (q : Query) (anchor : Nat) (events : List (Nat × Nat)),
      q.steps.drop i = rest →
      anchor ≤ i →
      (∀ g t, g < i → q.steps.get? g = some t → Step.is_group t = true → g ≤ anchor) →
      eventsOK q events i →
      ∃ q2 ev2,
        Query.pass2GoTr rest i q anchor events = some (q2, ev2) ∧
        Query.pass2Go rest i q anchor = some q2 ∧
        Query.pass2GoNR rest i q anchor = some q2 ∧
        q2.steps.map Step.is_group = q.steps.map Step.is_group ∧
        q2.steps.filter (fun s => !(Step.is_filter s))
          = q.steps.filter (fun s => !(Step.is_filter s)) ∧
        List.Perm q2.steps q.steps ∧
        eventsOK q2 ev2 (i + rest.length) := by
  intro rest
  induction rest with
  | nil =>
    intro i q anchor events hdrop hanc hgrp hev
    exact ⟨q, events, rfl, rfl, rfl, rfl, rfl, List.Perm.refl _, by simpa using hev⟩
  | cons step rest ih =>
    intro i q anchor events hdrop hanc hgrp hev
    have hstep_at : q.steps.get? i = some step := get?_of_drop_cons _ _ _ _ hdrop
    have hdrop1 : q.steps.drop (i + 1) = rest := drop_succ_of_drop_cons _ _ _ _ hdrop
    suffices h : ∃ qn an evn,
        Query.pass2GoTr (step :: rest) i q anchor events
          = Query.pass2GoTr rest (i + 1) qn an evn ∧
        Query.pass2Go (step :: rest) i q anchor = Query.pass2Go rest (i + 1) qn an ∧
        Query.pass2GoNR (step :: rest) i q anchor = Query.pass2GoNR rest (i + 1) qn an ∧
        qn.steps.map Step.is_group = q.steps.map Step.is_group ∧
        qn.steps.filter (fun s => !(Step.is_filter s))
          = q.steps.filter (fun s => !(Step.is_filter s)) ∧
        List.Perm qn.steps q.steps ∧
        qn.steps.drop (i + 1) = rest ∧
        an ≤ i + 1 ∧
        (∀ g t, g < i + 1 → qn.steps.get? g = some t → Step.is_group t = true → g ≤ an) ∧
        eventsOK qn evn (i + 1) by
      obtain ⟨qn, an, evn, hTr, hGo, hNR, hmask, hfilt, hperm, hdropn, hancn, hgrpn, hevn⟩ := h
      obtain ⟨qf, evf, hTr2, hGo2, hNR2, hmask2, hfilt2, hperm2, hevf⟩ :=
        ih (i + 1) qn an evn hdropn hancn hgrpn hevn
      refine ⟨qf, evf, ?_, ?_, ?_, ?_, ?_, ?_, ?_⟩
      · rw [hTr, hTr2]
      · rw [hGo, hGo2]
      · rw [hNR, hNR2]
      · rw [hmask2, hmask]
      · rw [hfilt2, hfilt]
      · exact hperm2.trans hperm
      · have harith : i + (step :: rest).length = (i + 1) + rest.length := by
          simp
          omega
        rw [harith]
        exact hevf
    by_cases hg : Step.is_group step
    · -- a Group Step: the anchor moves to i
      by_cases hf : Step.is_filter step
      · -- also a Filter Step: the raise is the identity
        have hrefine : Query.refineLoop q i (List.range' i (i - i)) = some Option.none := by
          rw [Nat.sub_self]
          rfl
        have hraise : Query.raise_step? q i i = some q := raise_step_id q i i (by omega)
        refine ⟨q, i, events ++ [(i, i)], ?_, ?_, ?_, rfl, rfl, List.Perm.refl _, hdrop1,
          by omega, by intro g t hgi _ _; omega, ?_⟩
        · simp only [Query.pass2GoTr, hg, if_true, hf, hrefine, hraise,
            map_posMap_id i i (by omega) events, posMap_of_id i i i (by omega)]
        · simp only [Query.pass2Go, hg, if_true, hf, hrefine, hraise]
        · simp only [Query.pass2GoNR, hg, if_true, hf, hraise]
        · exact eventsOK_append_id q events i i step hstep_at hf (by omega) hev
      · -- Group only: recurse with anchor := i
        have hf' : Step.is_filter step = false := by simpa using hf
        refine ⟨q, i, events, ?_, ?_, ?_, rfl, rfl, List.Perm.refl _, hdrop1,
          by omega, by intro g t hgi _ _; omega, ?_⟩
        · simp only [Query.pass2GoTr, hg, if_true, hf', Bool.false_eq_true, if_false]
        · simp only [Query.pass2Go, hg, if_true, hf', Bool.false_eq_true, if_false]
        · simp only [Query.pass2GoNR, hg, if_true, hf', Bool.false_eq_true, if_false]
        · exact eventsOK_succ q events i step hstep_at hf' hev
    · have hg' : Step.is_group step = false := by simpa using hg
      have hgrpn0 : ∀ g t, g < i + 1 → q.steps.get? g = some t →
          Step.is_group t = true → g ≤ anchor := by
        intro g t hgi hget hgt
        by_cases hgie : g = i
        · subst hgie
          rw [hstep_at] at hget
          rw [← Option.some.inj hget, hg'] at hgt
          exact Bool.noConfusion hgt
        · exact hgrp g t (by omega) hget hgt
      by_cases hf : Step.is_filter step
      · by_cases hii : i < anchor + 2
        · -- identity raise with anchor unchanged
          have hrefine : Query.refineLoop q i (List.range' i (anchor - i)) = some Option.none := by
            rw [show anchor - i = 0 from by omega]
            rfl
          have hraise : Query.raise_step? q i anchor = some q :=
            raise_step_id q i anchor (by omega)
          refine ⟨q, anchor, events ++ [(anchor, i)], ?_, ?_, ?_, rfl, rfl,
            List.Perm.refl _, hdrop1, by omega, hgrpn0, ?_⟩
          · simp only [Query.pass2GoTr, hg', Bool.false_eq_true, if_false, hf, if_true,
              hrefine, hraise, map_posMap_id i anchor hii events, posMap_of_id i anchor i hii]
          · simp only [Query.pass2Go, hg', Bool.false_eq_true, if_false, hf, if_true,
              hrefine, hraise]
          · simp only [Query.pass2GoNR, hg', Bool.false_eq_true, if_false, hf, if_true, hraise]
          · exact eventsOK_append_id q events i anchor step hstep_at hf (by omega) hev
        · -- the real raise
          push_neg at hii
          obtain ⟨A, B, hdecomp, hA, hB⟩ : ∃ A B, q.steps = A ++ B ++ step :: rest ∧
              A.length = anchor + 1 ∧ B.length = i - (anchor + 1) := by
            obtain ⟨h1, h2, h3⟩ := steps_decomp q.steps i anchor step rest (by omega) hdrop
            exact ⟨_, _, h1, h2, h3⟩
          have hiAB : i = A.length + B.length := by omega
          have hraise : Query.raise_step? q i anchor = some ⟨A ++ step :: (B ++ rest)⟩ :=
            raise_step_char q i anchor step A B rest hdecomp hA hB (by omega)
          have hBng : ∀ x ∈ B, Step.is_group x = false := by
            intro x hx
            obtain ⟨k, hk, hget⟩ := old_get?_mem_mid A step B rest x hx
            rw [← hdecomp] at hget
            by_cases hgx : Step.is_group x
            · exfalso
              have := hgrp (A.length + k) x (by omega) hget (by simpa using hgx)
              omega
            · simpa using hgx
          refine ⟨⟨A ++ step :: (B ++ rest)⟩, anchor,
            events.map (fun e => (e.1, posMap i anchor e.2)) ++ [(anchor, anchor + 1)],
            ?_, ?_, ?_, ?_, ?_, ?_, ?_, by omega, ?_, ?_⟩
          · have hrefine : Query.refineLoop q i (List.range' i (anchor - i))
                = some Option.none := by
              rw [show anchor - i = 0 from by omega]
              rfl
            simp only [Query.pass2GoTr, hg', Bool.false_eq_true, if_false, hf, if_true,
              hrefine, hraise, posMap_of_at i anchor hii]
          · have hrefine : Query.refineLoop q i (List.range' i (anchor - i))
                = some Option.none := by
              rw [show anchor - i = 0 from by omega]
              rfl
            simp only [Query.pass2Go, hg', Bool.false_eq_true, if_false, hf, if_true,
              hrefine, hraise]
          · simp only [Query.pass2GoNR, hg', Bool.false_eq_true, if_false, hf, if_true, hraise]
          · show (A ++ step :: (B ++ rest)).map Step.is_group = q.steps.map Step.is_group
            rw [hdecomp]
            exact surgery_map_eq Step.is_group A step B rest hg' hBng
          · show (A ++ step :: (B ++ rest)).filter (fun s => !(Step.is_filter s))
                = q.steps.filter (fun s => !(Step.is_filter s))
            rw [hdecomp]
            exact surgery_filter_eq _ A step B rest (by rw [hf]; rfl)
          · show List.Perm (A ++ step :: (B ++ rest)) q.steps
            rw [hdecomp]
            exact surgery_perm A step B rest
          · show (A ++ step :: (B ++ rest)).drop (i + 1) = rest
            exact surgery_drop_succ A step B rest i hiAB
          · -- the group bound for the next iteration
            have pw_at : (Query.mk (A ++ step :: (B ++ rest))).steps.get? (anchor + 1)
                = some step := by
              show (A ++ step :: (B ++ rest)).get? (anchor + 1) = some step
              rw [← hA]
              exact surgery_get?_at A step B rest
            have pw_mid : ∀ m, anchor + 2 ≤ m → m ≤ i →
                (A ++ step :: (B ++ rest)).get? m = q.steps.get? (m - 1) := by
              intro m h1 h2
              rw [hdecomp]
              exact surgery_get?_mid A step B rest m (by omega) (by omega)
            intro g t hgi hget hgt
            by_cases hga : g ≤ anchor
            · exact hga
            · exfalso
              push_neg at hga
              by_cases hga1 : g = anchor + 1
              · rw [hga1] at hget
                rw [pw_at] at hget
                rw [← Option.some.inj hget, hg'] at hgt
                exact Bool.noConfusion hgt
              · rw [pw_mid g (by omega) (by omega)] at hget
                have := hgrp (g - 1) t (by omega) hget hgt
                omega
          · -- the ghost trace stays correct
            apply eventsOK_raise q ⟨A ++ step :: (B ++ rest)⟩ events i anchor step hii hf hg'
              hgrp ?_ ?_ ?_ hev
            · intro m hm
              show (A ++ step :: (B ++ rest)).get? m = q.steps.get? m
              rw [hdecomp]
              exact surgery_get?_lt A step B rest m (by omega)
            · show (A ++ step :: (B ++ rest)).get? (anchor + 1) = some step
              rw [← hA]
              exact surgery_get?_at A step B rest
            · intro m h1 h2
              show (A ++ step :: (B ++ rest)).get? m = q.steps.get? (m - 1)
              rw [hdecomp]
              exact surgery_get?_mid A step B rest m (by omega) (by omega)
      · -- no Filter: plain recursion
        have hf' : Step.is_filter step = false := by simpa using hf
        refine ⟨q, anchor, events, ?_, ?_, ?_, rfl, rfl, List.Perm.refl _, hdrop1,
          by omega, hgrpn0, ?_⟩
        · simp only [Query.pass2GoTr, hg', Bool.false_eq_true, if_false, hf',
            Bool.false_eq_true, if_false]
        · simp only [Query.pass2Go, hg', Bool.false_eq_true, if_false, hf',
            Bool.false_eq_true, if_false]
        · simp only [Query.pass2GoNR, hg', Bool.false_eq_true, if_false, hf',
            Bool.false_eq_true, if_false]
        · exact eventsOK_succ q events i step hstep_at hf' hev

/-- Instantiation of the main induction at the start of pass 2. -/
theorem pass2_spec (q : Query) :
    ∃ q2 ev2,
      Query.pass2GoTr q.steps 0 q 0 [] = some (q2, ev2) ∧
      Query.pass2 q = some q2 ∧
      Query.pass2NoRefine q = some q2 ∧
      q2.steps.map Step.is_group = q.steps.map Step.is_group ∧
      q2.steps.filter (fun s => !(Step.is_filter s))
        = q.steps.filter (fun s => !(Step.is_filter s)) ∧
      List.Perm q2.steps q.steps ∧
      eventsOK q2 ev2 q.steps.length := by
  obtain ⟨q2, ev2, hTr, hGo, hNR, hmask, hfilt, hperm, hev⟩ :=
    pass2GoTr_spec q.steps 0 q 0 [] (List.drop_zero q.steps) (le_refl 0)
      (by intro g t hgi _ _; omega)
      (by
        constructor
        · intro e he
          exact absurd he (List.not_mem_nil e)
        · intro p s hp _ _
          omega)
  exact ⟨q2, ev2, hTr, hGo, hNR, hmask, hfilt, hperm, by simpa using hev⟩

/-! Characterization of the dead-column scan (Col::is_empty). -/

theorem foldl_emptyFlags_spec :
    ∀ (l : List Action) (e u n : Bool),
      ((l.foldl emptyFlags (e, u, n)).1 = true ↔
        e = true ∨ ∃ pre suf, l = pre ++ Action.empty :: suf ∧
          (n = true ∨ ∃ s, Action.name s ∈ pre) ∧
          (u = false ∧ ∀ x ∈ pre, isUse x = false)) := by
  intro l
  induction l with
  | nil =>
    intro e u n
    constructor
    · intro h
      exact Or.inl h
    · rintro (h | ⟨pre, suf, hsplit, h2, h3⟩)
      · exact h
      · exact absurd hsplit (by cases pre <;> simp)
  | cons a l ih =>
    intro e u n
    rw [List.foldl_cons]
    cases a with
    | empty =>
      simp only [emptyFlags]
      rw [ih (e || (n && !u)) u n]
      constructor
      · rintro (he | ⟨pre, suf, hsplit, hname, hu, hnouse⟩)
        · rw [Bool.or_eq_true] at he
          rcases he with he | he
          · exact Or.inl he
          · rw [Bool.and_eq_true] at he
            obtain ⟨hn, hu⟩ := he
            exact Or.inr ⟨[], l, rfl, Or.inl hn,
              by simpa using hu, by intro x hx; exact absurd hx (List.not_mem_nil x)⟩
        · refine Or.inr ⟨Action.empty :: pre, suf, by rw [hsplit]; rfl, ?_, hu, ?_⟩
          · rcases hname with hn | ⟨s, hs⟩
            · exact Or.inl hn
            · exact Or.inr ⟨s, List.mem_cons_of_mem _ hs⟩
          · intro x hx
            rcases List.mem_cons.1 hx with hx1 | hx2
            · rw [hx1]
              rfl
            · exact hnouse x hx2
      · rintro (he | ⟨pre, suf, hsplit, hname, hu, hnouse⟩)
        · exact Or.inl (by rw [he]; rfl)
        · rcases List.cons_eq_append.1 hsplit with ⟨hpre, hsuf⟩ | ⟨pre1, hpre, hrest⟩
          · subst hpre
            have hn : n = true := by
              rcases hname with h | ⟨s, hs⟩
              · exact h
              · exact absurd hs (List.not_mem_nil _)
            refine Or.inl ?_
            rw [hn, hu]
            simp
          · subst hpre
            refine Or.inr ⟨pre1, suf, hrest, ?_, hu, ?_⟩
            · rcases hname with h | ⟨s, hs⟩
              · exact Or.inl h
              · rcases List.mem_cons.1 hs with h1 | h1
                · exact Action.noConfusion h1
                · exact Or.inr ⟨s, h1⟩
            · intro y hy
              exact hnouse y (List.mem_cons_of_mem _ hy)
    | name s0 =>
      simp only [emptyFlags]
      rw [ih e u true]
      constructor
      · rintro (he | ⟨pre, suf, hsplit, hname, hu, hnouse⟩)
        · exact Or.inl he
        · refine Or.inr ⟨Action.name s0 :: pre, suf, by rw [hsplit]; rfl,
            Or.inr ⟨s0, List.mem_cons_self _ _⟩, hu, ?_⟩
          intro x hx
          rcases List.mem_cons.1 hx with hx1 | hx2
          · rw [hx1]
            rfl
          · exact hnouse x hx2
      · rintro (he | ⟨pre, suf, hsplit, hname, hu, hnouse⟩)
        · exact Or.inl he
        · rcases List.cons_eq_append.1 hsplit with ⟨hpre, hsuf⟩ | ⟨pre1, hpre, hrest⟩
          · exact absurd hsuf.symm (by simp)
          · subst hpre
            refine Or.inr ⟨pre1, suf, hrest, Or.inl rfl, hu, ?_⟩
            intro y hy
            exact hnouse y (List.mem_cons_of_mem _ hy)
    | filter =>
      simp only [emptyFlags]
      rw [ih e true n]
      constructor
      · rintro (he | ⟨pre, suf, hsplit, hname, hu, hnouse⟩)
        · exact Or.inl he
        · exact Bool.noConfusion hu
      · rintro (he | ⟨pre, suf, hsplit, hname, hu, hnouse⟩)
        · exact Or.inl he
        · rcases List.cons_eq_append.1 hsplit with ⟨hpre, hsuf⟩ | ⟨pre1, hpre, hrest⟩
          · exact absurd hsuf.symm (by simp)
          · subst hpre
            have := hnouse Action.filter (List.mem_cons_self _ _)
            exact Bool.noConfusion this
    | join s0 =>
      simp only [emptyFlags]
      rw [ih e true n]
      constructor
      · rintro (he | ⟨pre, suf, hsplit, hname, hu, hnouse⟩)
        · exact Or.inl he
        · exact Bool.noConfusion hu
      · rintro (he | ⟨pre, suf, hsplit, hname, hu, hnouse⟩)
        · exact Or.inl he
        · rcases List.cons_eq_append.1 hsplit with ⟨hpre, hsuf⟩ | ⟨pre1, hpre, hrest⟩
          · exact absurd hsuf.symm (by simp)
          · subst hpre
            have := hnouse (Action.join s0) (List.mem_cons_self _ _)
            exact Bool.noConfusion this
    | none =>
      simp only [emptyFlags]
      rw [ih e u n]
      constructor
      · rintro (he | ⟨pre, suf, hsplit, hname, hu, hnouse⟩)
        · exact Or.inl he
        · refine Or.inr ⟨Action.none :: pre, suf, by rw [hsplit]; rfl, ?_, hu, ?_⟩
          · rcases hname with h | ⟨s, hs⟩
            · exact Or.inl h
            · exact Or.inr ⟨s, List.mem_cons_of_mem _ hs⟩
          · intro x hx
            rcases List.mem_cons.1 hx with hx1 | hx2
            · rw [hx1]
              rfl
            · exact hnouse x hx2
      · rintro (he | ⟨pre, suf, hsplit, hname, hu, hnouse⟩)
        · exact Or.inl he
        · rcases List.cons_eq_append.1 hsplit with ⟨hpre, hsuf⟩ | ⟨pre1, hpre, hrest⟩
          · exact absurd hsuf.symm (by simp)
          · subst hpre
            refine Or.inr ⟨pre1, suf, hrest, ?_, hu, ?_⟩
            · rcases hname with h | ⟨s, hs⟩
              · exact Or.inl h
              · rcases List.mem_cons.1 hs with h1 | h1
                · exact Action.noConfusion h1
                · exact Or.inr ⟨s, h1⟩
            · intro y hy
              exact hnouse y (List.mem_cons_of_mem _ hy)
    | select =>
      simp only [emptyFlags]
      rw [ih e u n]
      constructor
      · rintro (he | ⟨pre, suf, hsplit, hname, hu, hnouse⟩)
        · exact Or.inl he
        · refine Or.inr ⟨Action.select :: pre, suf, by rw [hsplit]; rfl, ?_, hu, ?_⟩
          · rcases hname with h | ⟨s, hs⟩
            · exact Or.inl h
            · exact Or.inr ⟨s, List.mem_cons_of_mem _ hs⟩
          · intro x hx
            rcases List.mem_cons.1 hx with hx1 | hx2
            · rw [hx1]
              rfl
            · exact hnouse x hx2
      · rintro (he | ⟨pre, suf, hsplit, hname, hu, hnouse⟩)
        · exact Or.inl he
        · rcases List.cons_eq_append.1 hsplit with ⟨hpre, hsuf⟩ | ⟨pre1, hpre, hrest⟩
          · exact absurd hsuf.symm (by simp)
          · subst hpre
            refine Or.inr ⟨pre1, suf, hrest, ?_, hu, ?_⟩
            · rcases hname with h | ⟨s, hs⟩
              · exact Or.inl h
              · rcases List.mem_cons.1 hs with h1 | h1
                · exact Action.noConfusion h1
                · exact Or.inr ⟨s, h1⟩
            · intro y hy
              exact hnouse y (List.mem_cons_of_mem _ hy)
    | map =>
      simp only [emptyFlags]
      rw [ih e u n]
      constructor
      · rintro (he | ⟨pre, suf, hsplit, hname, hu, hnouse⟩)
        · exact Or.inl he
        · refine Or.inr ⟨Action.map :: pre, suf, by rw [hsplit]; rfl, ?_, hu, ?_⟩
          · rcases hname with h | ⟨s, hs⟩
            · exact Or.inl h
            · exact Or.inr ⟨s, List.mem_cons_of_mem _ hs⟩
          · intro x hx
            rcases List.mem_cons.1 hx with hx1 | hx2
            · rw [hx1]
              rfl
            · exact hnouse x hx2
      · rintro (he | ⟨pre, suf, hsplit, hname, hu, hnouse⟩)
        · exact Or.inl he
        · rcases List.cons_eq_append.1 hsplit with ⟨hpre, hsuf⟩ | ⟨pre1, hpre, hrest⟩
          · exact absurd hsuf.symm (by simp)
          · subst hpre
            refine Or.inr ⟨pre1, suf, hrest, ?_, hu, ?_⟩
            · rcases hname with h | ⟨s, hs⟩
              · exact Or.inl h
              · rcases List.mem_cons.1 hs with h1 | h1
                · exact Action.noConfusion h1
                · exact Or.inr ⟨s, h1⟩
            · intro y hy
              exact hnouse y (List.mem_cons_of_mem _ hy)
    | group k =>
      simp only [emptyFlags]
      rw [ih e u n]
      constructor
      · rintro (he | ⟨pre, suf, hsplit, hname, hu, hnouse⟩)
        · exact Or.inl he
        · refine Or.inr ⟨Action.group k :: pre, suf, by rw [hsplit]; rfl, ?_, hu, ?_⟩
          · rcases hname with h | ⟨s, hs⟩
            · exact Or.inl h
            · exact Or.inr ⟨s, List.mem_cons_of_mem _ hs⟩
          · intro x hx
            rcases List.mem_cons.1 hx with hx1 | hx2
            · rw [hx1]
              rfl
            · exact hnouse x hx2
      · rintro (he | ⟨pre, suf, hsplit, hname, hu, hnouse⟩)
        · exact Or.inl he
        · rcases List.cons_eq_append.1 hsplit with ⟨hpre, hsuf⟩ | ⟨pre1, hpre, hrest⟩
          · exact absurd hsuf.symm (by simp)
          · subst hpre
            refine Or.inr ⟨pre1, suf, hrest, ?_, hu, ?_⟩
            · rcases hname with h | ⟨s, hs⟩
              · exact Or.inl h
              · rcases List.mem_cons.1 hs with h1 | h1
                · exact Action.noConfusion h1
                · exact Or.inr ⟨s, h1⟩
            · intro y hy
              exact hnouse y (List.mem_cons_of_mem _ hy)

/-- The executable dead-column predicate coincides with its declarative
reading: some Empty cell is preceded by a Name and by no Filter or Join. -/
theorem is_empty_iff (c : Col) :
    Col.is_empty c = true ↔
      ∃ pre suf, c.actions = pre ++ Action.empty :: suf ∧
        (∃ s, Action.name s ∈ pre) ∧ (∀ x ∈ pre, isUse x = false) := by
  unfold Col.is_empty
  rw [foldl_emptyFlags_spec c.actions false false false]
  simp

/-! Characterization of widest_filter_index. -/

theorem wfi_concat (l : List Action) (x : Action) :
    Step.widest_filter_index ⟨l ++ [x]⟩ =
      if x = Action.filter then some l.length else Step.widest_filter_index ⟨l⟩ := by
  unfold Step.widest_filter_index
  have h1 : (Step.mk (l ++ [x])).actions.enum.reverse = (l.length, x) :: l.enum.reverse := by
    show (l ++ [x]).enum.reverse = (l.length, x) :: l.enum.reverse
    rw [List.enum_append, List.enumFrom_singleton, List.reverse_append]
    rfl
  rw [h1, List.find?_cons]
  by_cases hx : x = Action.filter
  · subst hx
    rw [if_pos rfl]
    rfl
  · rw [if_neg hx]
    cases x
    · rfl
    · rfl
    · rfl
    · rfl
    · rfl
    · exact absurd rfl hx
    · rfl
    · rfl

theorem wfi_char :
    ∀ (l : List Action),
      (∀ i, Step.widest_filter_index ⟨l⟩ = some i ↔
        (l.get? i = some Action.filter ∧ ∀ j, i < j → l.get? j ≠ some Action.filter)) ∧
      (Step.widest_filter_index ⟨l⟩ = Option.none ↔ ¬ Action.filter ∈ l) := by
  intro l
  induction l using List.reverseRecOn with
  | nil =>
    constructor
    · intro i
      constructor
      · intro h
        exact Option.noConfusion h
      · rintro ⟨h1, h2⟩
        exact absurd h1 (by simp)
    · constructor
      · intro _
        simp
      · intro _
        rfl
  | append_singleton l x ihl =>
    obtain ⟨ih1, ih2⟩ := ihl
    constructor
    · intro i
      rw [wfi_concat]
      by_cases hx : x = Action.filter
      · rw [if_pos hx]
        subst hx
        constructor
        · intro h
          have hi : l.length = i := Option.some.inj h
          subst hi
          constructor
          · exact List.get?_concat_length l Action.filter
          · intro j hj
            have hlen : (l ++ [Action.filter]).length ≤ j := by
              rw [List.length_append]
              simp only [List.length_singleton]
              omega
            rw [List.get?_eq_none.2 hlen]
            exact fun hc => Option.noConfusion hc
        · rintro ⟨h1, h2⟩
          rcases Nat.lt_trichotomy i l.length with hlt | heq | hgt
          · exact absurd (List.get?_concat_length l Action.filter) (h2 l.length hlt)
          · rw [heq]
          · exfalso
            have hlen : (l ++ [Action.filter]).length ≤ i := by
              rw [List.length_append]
              simp only [List.length_singleton]
              omega
            rw [List.get?_eq_none.2 hlen] at h1
            exact Option.noConfusion h1
      · rw [if_neg hx, ih1 i]
        constructor
        · rintro ⟨h1, h2⟩
          obtain ⟨hi, _⟩ := List.get?_eq_some.1 h1
          constructor
          · rw [List.get?_append hi]
            exact h1
          · intro j hj
            by_cases hjl : j < l.length
            · rw [List.get?_append hjl]
              exact h2 j hj
            · by_cases hje : j = l.length
              · subst hje
                rw [List.get?_concat_length]
                intro hc
                exact hx (Option.some.inj hc)
              · have hlen : (l ++ [x]).length ≤ j := by
                  rw [List.length_append]
                  simp only [List.length_singleton]
                  omega
                rw [List.get?_eq_none.2 hlen]
                exact fun hc => Option.noConfusion hc
        · rintro ⟨h1, h2⟩
          have hi : i < l.length := by
            rcases Nat.lt_trichotomy i l.length with h | h | h
            · exact h
            · exfalso
              subst h
              rw [List.get?_concat_length] at h1
              exact hx (Option.some.inj h1)
            · exfalso
              have hlen : (l ++ [x]).length ≤ i := by
                rw [List.length_append]
                simp only [List.length_singleton]
                omega
              rw [List.get?_eq_none.2 hlen] at h1
              exact Option.noConfusion h1
          constructor
          · rw [List.get?_append hi] at h1
            exact h1
          · intro j hj
            by_cases hjl : j < l.length
            · have hh := h2 j hj
              rw [List.get?_append hjl] at hh
              exact hh
            · rw [List.get?_eq_none.2 (by omega)]
              exact fun hc => Option.noConfusion hc
    · rw [wfi_concat]
      by_cases hx : x = Action.filter
      · rw [if_pos hx]
        constructor
        · intro h
          exact Option.noConfusion h
        · intro h
          exact absurd (List.mem_append_right l (by rw [hx]; exact List.mem_singleton_self _)) h
      · rw [if_neg hx, ih2]
        constructor
        · intro h hmem
          rcases List.mem_append.1 hmem with h1 | h1
          · exact h h1
          · have hfx : Action.filter = x := by simpa using h1
            exact hx hfx.symm
        · intro h hmem
          exact h (List.mem_append_left _ hmem)

/-! Lemmas about columns, width and remove_col. -/

theorem col_get? (q : Query) (i k : Nat) :
    (Query.col q i).actions.get? k = (q.steps.get? k).map (fun step =>
      match step.actions.get? i with
      | some a => a
      | Option.none => Action.empty) := by
  unfold Query.col
  exact List.get?_map _ _ _

theorem col_get?_short (q : Query) (i k : Nat) (s : Step) (h : q.steps.get? k = some s)
    (hs : s.actions.length ≤ i) : (Query.col q i).actions.get? k = some Action.empty := by
  rw [col_get?, h]
  simp only [Option.map_some']
  rw [List.get?_eq_none.2 hs]

theorem col_get?_long (q : Query) (i k : Nat) (s : Step) (h : q.steps.get? k = some s)
    (hs : i < s.actions.length) :
    (Query.col q i).actions.get? k = some (s.actions.get ⟨i, hs⟩) := by
  rw [col_get?, h]
  simp only [Option.map_some']
  rw [List.get?_eq_get hs]

theorem col_length (q : Query) (i : Nat) :
    (Query.col q i).actions.length = q.steps.length := by
  unfold Query.col
  simp

theorem cols_spec (q : Query) :
    (Query.cols q).length = Query.width q ∧
    ∀ i, i < Query.width q → (Query.cols q).get? i = some (Query.col q i) := by
  unfold Query.cols
  constructor
  · simp
  · intro i hi
    rw [List.get?_map, List.get?_range hi]
    rfl

theorem width_last (q : Query) (s : Step) (h : q.steps.getLast? = some s) :
    Query.width q = s.actions.length := by
  unfold Query.width
  rw [h]

theorem width_nil (q : Query) (h : q.steps = []) : Query.width q = 0 := by
  unfold Query.width
  rw [h]
  rfl

theorem eraseIdx_get?_lt {a : Type} (l : List a) (i m : Nat) (h : m < i) :
    (l.eraseIdx i).get? m = l.get? m := by
  rw [List.eraseIdx_eq_take_drop_succ]
  by_cases h1 : m < (l.take i).length
  · rw [List.get?_append h1, List.get?_take h]
  · have h2 : l.length ≤ m := by
      rw [List.length_take] at h1
      omega
    rw [List.get?_append_right (by omega), List.get?_eq_none.2 (by rw [List.length_drop]; omega),
      List.get?_eq_none.2 h2]

theorem eraseIdx_get?_ge {a : Type} (l : List a) (i m : Nat) (h1 : i < l.length) (h : i ≤ m) :
    (l.eraseIdx i).get? m = l.get? (m + 1) := by
  rw [List.eraseIdx_eq_take_drop_succ,
    List.get?_append_right (by rw [List.length_take]; omega), List.get?_drop]
  congr 1
  rw [List.length_take]
  omega

theorem remove_col_length (q : Query) (idx : Nat) :
    (Query.remove_col q idx).steps.length = q.steps.length := by
  unfold Query.remove_col
  simp

theorem remove_col_get? (q : Query) (idx k : Nat) :
    (Query.remove_col q idx).steps.get? k = (q.steps.get? k).map
      (fun step => if idx < step.actions.length then ⟨step.actions.eraseIdx idx⟩ else step) := by
  unfold Query.remove_col
  exact List.get?_map _ _ _

/-! Pass 1 as a fold over the dead columns, and cell counting. -/

theorem pass1_eq_foldl_dead (q : Query) :
    Query.pass1 q = ((Query.cols q).enum.filter (fun p => Col.is_empty p.2)).foldl
      (fun acc p => Query.remove_col acc p.1) q := by
  unfold Query.pass1
  exact foldlIf_eq_foldl_filter (fun p => Col.is_empty p.2)
    (fun acc p => Query.remove_col acc p.1) (Query.cols q).enum q

theorem totalCells_remove_col_le (q : Query) (idx : Nat) :
    totalCells (Query.remove_col q idx) ≤ totalCells q := by
  unfold totalCells Query.remove_col
  rw [List.map_map]
  apply List.sum_le_sum
  intro s _
  by_cases h : idx < s.actions.length
  · simp only [Function.comp, h, if_true]
    rw [List.length_eraseIdx, if_pos h]
    omega
  · simp only [Function.comp, h, if_false]
    exact le_refl _

theorem totalCells_foldl_remove_le :
    ∀ (l : List (Nat × Col)) (q : Query),
      totalCells (l.foldl (fun acc p => if Col.is_empty p.2 then acc.remove_col p.1 else acc) q)
        ≤ totalCells q := by
  intro l
  induction l with
  | nil =>
    intro q
    exact le_refl _
  | cons x l ih =>
    intro q
    rw [List.foldl_cons]
    refine le_trans (ih _) ?_
    by_cases h : Col.is_empty x.2
    · rw [if_pos h]
      exact totalCells_remove_col_le q x.1
    · rw [if_neg h]

theorem totalCells_pass1_le (q : Query) : totalCells (Query.pass1 q) ≤ totalCells q := by
  unfold Query.pass1
  exact totalCells_foldl_remove_le (Query.cols q).enum q

theorem totalCells_of_perm (q1 q2 : Query) (h : List.Perm q1.steps q2.steps) :
    totalCells q1 = totalCells q2 := by
  unfold totalCells
  exact (h.map (fun s : Step => s.actions.length)).sum_eq

/-! The claims. -/

/-- C1 counterexample: the column [Name "a", Empty, Filter] contains a
Filter cell, yet Col.is_empty holds, refuting the claim that a column
with any Filter or Join cell is never dead. -/
theorem C1_counterexample :
    Col.is_empty (Col.mk [Action.name "a", Action.empty, Action.filter]) = true ∧
    Action.filter ∈ (Col.mk [Action.name "a", Action.empty, Action.filter]).actions := by
  exact ⟨rfl, by simp⟩

/-- C1 (amended): Col.is_empty holds iff some Empty cell of the column is
strictly preceded by a Name and by no Filter or Join; a Filter or Join
only protects against Empty holes occurring after it, and a column with
no Name or with no Empty is never dead. -/
theorem C1_dead_column_characterization (c : Col) :
    (Col.is_empty c = true ↔
      ∃ pre suf, c.actions = pre ++ Action.empty :: suf ∧
        (∃ s, Action.name s ∈ pre) ∧ (∀ x ∈ pre, isUse x = false)) ∧
    ((¬ Action.empty ∈ c.actions) → Col.is_empty c = false) ∧
    ((∀ s, ¬ Action.name s ∈ c.actions) → Col.is_empty c = false) := by
  refine ⟨is_empty_iff c, ?_, ?_⟩
  · intro h
    by_cases hc : Col.is_empty c
    · exfalso
      obtain ⟨pre, suf, hs, _, _⟩ := (is_empty_iff c).1 hc
      exact h (by rw [hs]; exact List.mem_append_right _ (List.mem_cons_self _ _))
    · simpa using hc
  · intro h
    by_cases hc : Col.is_empty c
    · exfalso
      obtain ⟨pre, suf, hs, ⟨s, hmem⟩, _⟩ := (is_empty_iff c).1 hc
      exact h s (by rw [hs]; exact List.mem_append_left _ hmem)
    · simpa using hc

/-- Witness for C1 at the column [Empty, Name "a", Empty] from the
repository's own test. -/
theorem C1_witness :
    Col.is_empty (Col.mk [Action.empty, Action.name "a", Action.empty]) = true :=
  ((C1_dead_column_characterization (Col.mk [Action.empty, Action.name "a", Action.empty])).1).mpr
    ⟨[Action.empty, Action.name "a"], [], rfl, ⟨"a", by simp⟩, by decide⟩

/-- C2 counterexample: in the plan [[Name a, Name b, Name c], [Empty,
Empty, Select]] columns 0 and 1 are dead and column 2 is live, yet
optimize returns [[Name b], [Empty]]: the dead column 1 survives and the
live column 2 is removed, because the second removal hits the already
shifted plan. -/
theorem C2_counterexample :
    Col.is_empty (Query.col (Query.new [[Action.name "a", Action.name "b", Action.name "c"],
        [Action.empty, Action.empty, Action.select]]) 1) = true ∧
    Col.is_empty (Query.col (Query.new [[Action.name "a", Action.name "b", Action.name "c"],
        [Action.empty, Action.empty, Action.select]]) 2) = false ∧
    Query.optimize (Query.new [[Action.name "a", Action.name "b", Action.name "c"],
        [Action.empty, Action.empty, Action.select]])
      = some (Query.new [[Action.name "b"], [Action.empty]]) := by
  exact ⟨rfl, rfl, by decide⟩

/-- C2 (amended): Pass 1 folds one removal per dead column of the input's
materialized columns, each applied at the dead column's input index to
the already shifted plan; when no input column is dead the plan is
unchanged, when exactly one is dead exactly that column is removed, and
the Scenario C plan optimizes as stated. -/
theorem C2_pass1_removal :
    (∀ q : Query, ((Query.cols q).enum.filter (fun p => Col.is_empty p.2)) = [] →
        Query.pass1 q = q) ∧
    (∀ (q : Query) (i : Nat) (c : Col),
        ((Query.cols q).enum.filter (fun p => Col.is_empty p.2)) = [(i, c)] →
        Query.pass1 q = Query.remove_col q i) ∧
    (Query.optimize (Query.new [[Action.name "a"],
        [Action.join "d", Action.name "b", Action.name "c"],
        [Action.select, Action.select, Action.empty]])
      = some (Query.new [[Action.name "a"], [Action.join "d", Action.name "b"],
        [Action.select, Action.select]])) := by
  refine ⟨?_, ?_, by decide⟩
  · intro q h
    rw [pass1_eq_foldl_dead, h]
    rfl
  · intro q i c h
    rw [pass1_eq_foldl_dead, h]
    rfl

/-- Witness for C2 at the Scenario C plan, whose only dead column is
column 2. -/
theorem C2_witness :
    Query.pass1 (Query.new [[Action.name "a"],
        [Action.join "d", Action.name "b", Action.name "c"],
        [Action.select, Action.select, Action.empty]])
      = Query.remove_col (Query.new [[Action.name "a"],
        [Action.join "d", Action.name "b", Action.name "c"],
        [Action.select, Action.select, Action.empty]]) 2 :=
  C2_pass1_removal.2.1 _ 2 (Col.mk [Action.empty, Action.name "c", Action.empty]) (by decide)

/-- C3 counterexample: on the plan [[Select, Select, Select, Select],
[Select], [None, None, None, Filter]] the spec's downward anchor search
(row 1 is narrower than rightmost_filter_index - 1 = 2, so the anchor
would move to 1 and the hoist would be blocked) disagrees with the code,
which hoists the Filter Step above the narrow row. -/
theorem C3_counterexample :
    Query.optimizeSpecC3 (Query.new [[Action.select, Action.select, Action.select, Action.select],
        [Action.select], [Action.none, Action.none, Action.none, Action.filter]])
      ≠ Query.optimize (Query.new [[Action.select, Action.select, Action.select, Action.select],
        [Action.select], [Action.none, Action.none, Action.none, Action.filter]]) := by
  decide

/-- C3 (amended): the anchor-refinement loop iterates the ascending Rust
range i..filter_anchor, which is always empty because the anchor never
exceeds the scan index; the search body never runs, the anchor is never
refined before a hoist, and pass 2 equals the variant with the loop
deleted. -/
theorem C3_refinement_search_never_runs (q : Query) :
    Query.pass2 q = Query.pass2NoRefine q := by
  obtain ⟨q2, ev2, hTr, hGo, hNR, _⟩ := pass2_spec q
  rw [hGo, hNR]

/-- C4: in the result of optimize every Filter-containing Step at
position p is recorded by the hoist trace together with its hoist-time
anchor a, no Group-containing Step lies strictly between a and p in the
result, and pass 2 leaves the Group mask of the step sequence unchanged:
a Filter Step is never relocated above the most recent Group Step at or
before it. -/
theorem C4_filter_never_crosses_group (q : Query) (res : Query × List (Nat × Nat))
    (h : Query.optimizeTr q = some res) :
    Query.optimize q = some res.1 ∧
    res.1.steps.map Step.is_group = (Query.pass1 q).steps.map Step.is_group ∧
    (∀ p s, res.1.steps.get? p = some s → Step.is_filter s = true →
      ∃ e, e ∈ res.2 ∧ e.2 = p ∧
        ∀ m t, e.1 < m → m < p → res.1.steps.get? m = some t → Step.is_group t = false) := by
  obtain ⟨q2, ev2, hTr, hGo, hNR, hmask, hfilt, hperm, hev⟩ := pass2_spec (Query.pass1 q)
  unfold Query.optimizeTr at h
  rw [hTr] at h
  have hres : res = (q2, ev2) := (Option.some.inj h).symm
  subst hres
  refine ⟨?_, hmask, ?_⟩
  · show Query.optimize q = some q2
    unfold Query.optimize
    exact hGo
  · intro p s hp hsf
    obtain ⟨hplen, _⟩ := List.get?_eq_some.1 hp
    have hp_lt : p < (Query.pass1 q).steps.length := by
      rw [← hperm.length_eq]
      exact hplen
    obtain ⟨e, he, he2⟩ := hev.2 p s hp_lt hp hsf
    obtain ⟨_, _, hng⟩ := hev.1 e he
    refine ⟨e, he, he2, ?_⟩
    intro m t h1 h2 h3
    exact hng m t h1 (by rw [he2]; exact h2) h3

/-- Witness for C4 at the Scenario D plan, whose single hoist has anchor
0 and lands at position 1. -/
theorem C4_witness :
    Query.optimize (Query.new [[Action.name "a"], [Action.map], [Action.filter]])
      = some (Query.new [[Action.name "a"], [Action.filter], [Action.map]]) :=
  (C4_filter_never_crosses_group (Query.new [[Action.name "a"], [Action.map], [Action.filter]])
    (Query.new [[Action.name "a"], [Action.filter], [Action.map]], [(0, 1)]) (by rfl)).1

/-- C5 counterexample: in the plan [[Group 0, Filter], [Select, Select]]
the Step at position 0 contains a Filter and is hoisted with anchor 0,
but it is not relocated to position anchor + 1 = 1: optimize returns the
plan unchanged, because the swap range anchor+2..i+1 is empty when the
anchor equals the Filter Step's own index. -/
theorem C5_counterexample :
    Step.is_filter (Step.mk [Action.group 0, Action.filter]) = true ∧
    Query.optimize (Query.new [[Action.group 0, Action.filter], [Action.select, Action.select]])
      = some (Query.new [[Action.group 0, Action.filter], [Action.select, Action.select]]) := by
  exact ⟨rfl, by decide⟩

/-- C5 (amended): a raise with anchor + 1 ≤ i relocates the Step at i to
position anchor + 1 and shifts the Steps formerly at anchor+1..i-1 one
position later preserving their relative order, while a raise with
i ≤ anchor + 1 (in particular a Step that is both Group and Filter,
whose anchor is its own index) leaves the plan unchanged; over the whole
pass the sublist of non-Filter Steps is preserved, and Scenario D
optimizes as stated. -/
theorem C5_hoist_block_shift :
    (∀ (q : Query) (i a : Nat), i ≤ a + 1 → Query.raise_step? q i a = some q) ∧
    (∀ (q : Query) (i a : Nat) (f : Step) (C : List Step), a + 1 ≤ i →
        q.steps.drop i = f :: C →
        Query.raise_step? q i a
          = some ⟨q.steps.take (a + 1) ++
              f :: ((q.steps.drop (a + 1)).take (i - (a + 1)) ++ C)⟩) ∧
    (∀ (q q2 : Query), Query.pass2 q = some q2 →
        q2.steps.filter (fun s => !(Step.is_filter s))
          = q.steps.filter (fun s => !(Step.is_filter s))) ∧
    (Query.optimize (Query.new [[Action.name "a"], [Action.map], [Action.filter]])
      = some (Query.new [[Action.name "a"], [Action.filter], [Action.map]])) := by
  refine ⟨?_, ?_, ?_, by decide⟩
  · intro q i a h
    exact raise_step_id q i a (by omega)
  · intro q i a f C ha hd
    obtain ⟨hdecomp, hA, hB⟩ := steps_decomp q.steps i a f C ha hd
    exact raise_step_char q i a f _ _ C hdecomp hA hB ha
  · intro q q2 h
    obtain ⟨q2x, ev2, hTr, hGo, hNR, hmask, hfilt, hperm, hev⟩ := pass2_spec q
    rw [hGo] at h
    rw [← Option.some.inj h]
    exact hfilt

/-- Witness for C5: the raise of the Filter Step of Scenario D from
position 2 to position 1. -/
theorem C5_witness :
    Query.raise_step? (Query.new [[Action.name "a"], [Action.map], [Action.filter]]) 2 0
      = some (Query.new [[Action.name "a"], [Action.filter], [Action.map]]) :=
  C5_hoist_block_shift.2.1 (Query.new [[Action.name "a"], [Action.map], [Action.filter]]) 2 0
    (Step.mk [Action.filter]) [] (by decide) (by rfl)

/-- C6: widest_filter_index returns some i exactly when cell i is a
Filter and no later cell is one (the right-most Filter), none exactly
when the row has no Filter, and on [None, Filter, Filter, None] it
returns 2. -/
theorem C6_widest_filter_index (s : Step) :
    (∀ i, Step.widest_filter_index s = some i ↔
      (s.actions.get? i = some Action.filter ∧
        ∀ j, i < j → s.actions.get? j ≠ some Action.filter)) ∧
    (Step.widest_filter_index s = Option.none ↔ ¬ Action.filter ∈ s.actions) ∧
    Step.widest_filter_index (Step.mk [Action.none, Action.filter, Action.filter, Action.none])
      = some 2 := by
  refine ⟨?_, ?_, by rfl⟩
  · exact (wfi_char s.actions).1
  · exact (wfi_char s.actions).2

/-- Witness for C6 at the one-Filter row [Filter, None]. -/
theorem C6_witness :
    Step.widest_filter_index (Step.mk [Action.filter, Action.none]) = some 0 :=
  ((C6_widest_filter_index (Step.mk [Action.filter, Action.none])).1 0).mpr
    ⟨rfl, by
      intro j hj
      cases j with
      | zero => omega
      | succ n =>
        cases n with
        | zero => decide
        | succ m =>
          show ([Action.filter, Action.none].get? (m + 1 + 1)) ≠ some Action.filter
          rw [List.get?_cons_succ, List.get?_cons_succ, List.get?_nil]
          simp⟩

/-- C7: the materialized column at position i reads cell i of every Step
in order, substituting Empty for Steps shorter than i+1; a column is as
long as the plan; cols materializes one column per position below the
width, which is the length of the last Step (0 for an empty plan); and
Scenario A materializes as stated. -/
theorem C7_column_materialization :
    (∀ (q : Query) (i k : Nat) (s : Step), q.steps.get? k = some s →
        ((s.actions.length ≤ i → (Query.col q i).actions.get? k = some Action.empty) ∧
         (∀ h : i < s.actions.length,
            (Query.col q i).actions.get? k = some (s.actions.get ⟨i, h⟩)))) ∧
    (∀ (q : Query) (i : Nat), (Query.col q i).actions.length = q.steps.length) ∧
    (∀ q : Query, (Query.cols q).length = Query.width q ∧
      ∀ i, i < Query.width q → (Query.cols q).get? i = some (Query.col q i)) ∧
    (∀ (q : Query) (s : Step), q.steps.getLast? = some s → Query.width q = s.actions.length) ∧
    (∀ q : Query, q.steps = [] → Query.width q = 0) ∧
    ((Query.col (Query.new [[Action.name "a"], [Action.join "d", Action.name "b"]]) 0).actions
        = [Action.name "a", Action.join "d"] ∧
     (Query.col (Query.new [[Action.name "a"], [Action.join "d", Action.name "b"]]) 1).actions
        = [Action.empty, Action.name "b"]) := by
  refine ⟨?_, col_length, cols_spec, width_last, width_nil, rfl, rfl⟩
  intro q i k s hk
  exact ⟨fun hle => col_get?_short q i k s hk hle, fun h => col_get?_long q i k s hk h⟩

/-- Witness for C7: in Scenario A, the first Step is shorter than 2, so
column 1 shows Empty at position 0. -/
theorem C7_witness :
    (Query.col (Query.new [[Action.name "a"], [Action.join "d", Action.name "b"]]) 1).actions.get? 0
      = some Action.empty :=
  ((C7_column_materialization.1 (Query.new [[Action.name "a"], [Action.join "d", Action.name "b"]])
      1 0 (Step.mk [Action.name "a"]) rfl).1) (by decide)

/-- C8: optimize never increases the total number of Action cells: the
output's cell count is at most the input's, and pass 2 leaves the count
of pass 1's result unchanged (only pass 1 removes cells). -/
theorem C8_optimize_never_increases_cells (q q2 : Query) (h : Query.optimize q = some q2) :
    totalCells q2 ≤ totalCells q ∧ totalCells q2 = totalCells (Query.pass1 q) := by
  obtain ⟨q2x, ev2, hTr, hGo, hNR, hmask, hfilt, hperm, hev⟩ := pass2_spec (Query.pass1 q)
  unfold Query.optimize at h
  rw [hGo] at h
  have hq : q2x = q2 := Option.some.inj h
  subst hq
  have he : totalCells q2x = totalCells (Query.pass1 q) := totalCells_of_perm _ _ hperm
  exact ⟨le_trans (le_of_eq he) (totalCells_pass1_le q), he⟩

/-- Witness for C8 at the Scenario C plan: 7 cells in, 5 cells out. -/
theorem C8_witness :
    totalCells (Query.new [[Action.name "a"], [Action.join "d", Action.name "b"],
        [Action.select, Action.select]])
      ≤ totalCells (Query.new [[Action.name "a"],
        [Action.join "d", Action.name "b", Action.name "c"],
        [Action.select, Action.select, Action.empty]]) :=
  (C8_optimize_never_increases_cells (Query.new [[Action.name "a"],
      [Action.join "d", Action.name "b", Action.name "c"],
      [Action.select, Action.select, Action.empty]])
    (Query.new [[Action.name "a"], [Action.join "d", Action.name "b"],
      [Action.select, Action.select]]) (by decide)).1

/-- C9: remove_col keeps the number of rows, leaves every row of length
at most the index exactly unchanged, and removes exactly the cell at the
index from every longer row: earlier cells keep their positions and
later cells shift one position left. -/
theorem C9_remove_col_out_of_range (q : Query) (idx : Nat) :
    (Query.remove_col q idx).steps.length = q.steps.length ∧
    (∀ k s, q.steps.get? k = some s → s.actions.length ≤ idx →
        (Query.remove_col q idx).steps.get? k = some s) ∧
    (∀ k s, q.steps.get? k = some s → idx < s.actions.length →
        ∃ s2, (Query.remove_col q idx).steps.get? k = some s2 ∧
          s2.actions.length + 1 = s.actions.length ∧
          (∀ m, m < idx → s2.actions.get? m = s.actions.get? m) ∧
          (∀ m, idx ≤ m → s2.actions.get? m = s.actions.get? (m + 1))) := by
  refine ⟨remove_col_length q idx, ?_, ?_⟩
  · intro k s hk hle
    rw [remove_col_get?, hk]
    simp only [Option.map_some']
    rw [if_neg (by omega)]
  · intro k s hk hlt
    refine ⟨⟨s.actions.eraseIdx idx⟩, ?_, ?_, ?_, ?_⟩
    · rw [remove_col_get?, hk]
      simp only [Option.map_some']
      rw [if_pos hlt]
    · show (s.actions.eraseIdx idx).length + 1 = s.actions.length
      rw [List.length_eraseIdx, if_pos hlt]
      omega
    · intro m hm
      exact eraseIdx_get?_lt s.actions idx m hm
    · intro m hm
      exact eraseIdx_get?_ge s.actions idx m hlt hm

/-- Witness for C9: removing column 1 from [[Name "a"], [Select,
Select]] leaves the short first row unchanged. -/
theorem C9_witness :
    (Query.remove_col (Query.new [[Action.name "a"], [Action.select, Action.select]]) 1).steps.get? 0
      = some (Step.mk [Action.name "a"]) :=
  (C9_remove_col_out_of_range (Query.new [[Action.name "a"],
      [Action.select, Action.select]]) 1).2.1 0 (Step.mk [Action.name "a"]) rfl (by decide)

/-- C10: optimize is total — it never panics on any input plan — and the
anchor-refinement loop body (with its unwrap and usize subtraction)
never executes: optimize equals pass 1 followed by pass 2 with the loop
deleted. -/
theorem C10_optimize_total (q : Query) :
    (Query.optimize q).isSome = true ∧
    Query.optimize q = Query.pass2NoRefine (Query.pass1 q) := by
  obtain ⟨q2, ev2, hTr, hGo, hNR, _⟩ := pass2_spec (Query.pass1 q)
  unfold Query.optimize
  rw [hGo, hNR]
  exact ⟨rfl, rfl⟩

end DataFrames
